import Mathlib

/-!
Shallow embedding of `src/market/matcher.rs` (spark-matcher-rs).

The file embeds `SparkMatcher::match_orders`: the two-heap matching loop
(lines 125-149), the chunking of matches into settlement batches of size 2
(lines 170-172), the per-batch wallet selection (lines 177-191), the
conversion of order ids to `Bits256` (lines 194-202), and the post-settlement
result handling — the unconditional `clear_orders` call and the per-result
logging loop (lines 220-251).

Machine integers (`u128` amounts and prices) are modelled as `Nat`: the only
arithmetic performed is `min`, saturating-free subtraction of `min` (which
never underflows because `min x y ≤ x`), and sums that the claims compare as
mathematical sums, so wrap-around is never observable in the embedded
fragment.  Wall-clock fields of `TransactionLog` (durations, `tx_id`,
`gas_used`) are outside the embedding; the data-flow fields are kept.
-/

/-- An order as used by the matcher: `crate::model::SpotOrder` restricted to
the fields `match_orders` reads (`id`, `price`, `amount`).  The struct itself
is repository code outside the provided sources; the fields are taken from
their uses in `matcher.rs`. -/
structure SpotOrder where
  id : String
  price : Nat
  amount : Nat
deriving DecidableEq

/-- One emitted match: the `(String, String, u128)` triple pushed onto
`matches` (buy id, sell id, matched amount). -/
structure Fill where
  buyId : String
  sellId : String
  amount : Nat
deriving DecidableEq

/-- Modelled from the spec: `BinaryHeap::pop` on the buy queue.  `SpotOrder`'s
`Ord` instance lives in `crate::model` (not among the provided sources); the
spec states the buy heap is "a maximum-priority queue over buy orders ordered
by price descending (ties broken by queue/heap arbitrary order)".  We model
the heap as the list of its elements and pop a maximal-price element
(preferring the earlier one on ties, one admissible heap tie-break). -/
def popMaxBuy : List SpotOrder → Option (SpotOrder × List SpotOrder)
  | [] => none
  | o :: rest =>
    match popMaxBuy rest with
    | none => some (o, rest)
    | some (m, rest') =>
      if m.price ≤ o.price then some (o, rest) else some (m, o :: rest')

/-- Modelled from the spec: `BinaryHeap::pop` on the sell queue, which holds
`Reverse(order)` — "a minimum-priority queue over sell orders ordered by price
ascending".  Pops a minimal-price element (preferring the earlier on ties). -/
def popMinSell : List SpotOrder → Option (SpotOrder × List SpotOrder)
  | [] => none
  | o :: rest =>
    match popMinSell rest with
    | none => some (o, rest)
    | some (m, rest') =>
      if o.price ≤ m.price then some (o, rest) else some (m, o :: rest')

/-- The re-enqueue step of the loop body: `order.amount -= match_amount;
if order.amount > 0 { queue.push(order) }` (lines 136-145). -/
def reEnqueue (o : SpotOrder) (m : Nat) (q : List SpotOrder) : List SpotOrder :=
  if 0 < o.amount - m then SpotOrder.mk o.id o.price (o.amount - m) :: q else q

/-- Result of the matching loop: the emitted fills in discovery order, the
final buy queue and the final sell queue. -/
abbrev MatchState := List Fill × List SpotOrder × List SpotOrder

/-- Fuelled embedding of the `while let (Some(buy), Some(Reverse(sell)))`
loop (lines 128-149).  Both pops are evaluated each iteration, exactly as in
the Rust `while let` over a tuple: when the pattern fails (one side `None`),
the order popped from the other side has already been removed and is dropped.
On a crossing pair (`buy.price >= sell.price`, embedded as
`sell.price ≤ buy.price`) a fill of `min` of the amounts is pushed
unconditionally and each side is re-enqueued only if its decremented amount
is positive; on a non-crossing pair the sell is pushed back, the buy is
dropped, and the loop continues.  `none` means the fuel ran out; the theorem
`matching_total` shows `buys.length + sells.length + 1` fuel always
suffices. -/
def matchLoopF : Nat → List SpotOrder → List SpotOrder → Option MatchState
  | 0, _, _ => none
  | fuel + 1, buys, sells =>
    match popMaxBuy buys, popMinSell sells with
    | some (b, buys'), some (s, sells') =>
      if s.price ≤ b.price then
        let m := min b.amount s.amount
        match matchLoopF fuel (reEnqueue b m buys') (reEnqueue s m sells') with
        | some (fills, rb, rs) => some (Fill.mk b.id s.id m :: fills, rb, rs)
        | none => none
      else
        matchLoopF fuel buys' (s :: sells')
    | some (_, buys'), none => some ([], buys', [])
    | none, some (_, sells') => some ([], [], sells')
    | none, none => some ([], [], [])

/-- The matching loop itself, run with sufficient fuel (each iteration
strictly decreases the total number of queued orders, so
`buys.length + sells.length + 1` steps always reach the exit). -/
def matchLoop (buys sells : List SpotOrder) : MatchState :=
  (matchLoopF (buys.length + sells.length + 1) buys sells).getD ([], [], [])

/-- Sum of the remaining amounts of a queue of orders. -/
def sumAmounts (l : List SpotOrder) : Nat := (l.map SpotOrder.amount).sum

/-- Sum of the matched amounts of a list of fills (the code's running
`total_amount`). -/
def sumFills (l : List Fill) : Nat := (l.map Fill.amount).sum

/-- The batch partition `matches.chunks(chunk_size)` with `chunk_size = 2`
(lines 170-172): sequential chunking, last chunk possibly smaller, no chunk
for an empty list. -/
def chunksOf2 : List α → List (List α)
  | [] => []
  | [a] => [[a]]
  | a :: b :: l => [a, b] :: chunksOf2 l

/-- Outcome of one settlement batch task, as observed by the result loop
(lines 223-250): `ok` is `Ok(Ok(()))`, `submitErr` is `Ok(Err(e))` from
`market.match_order_many`, `joinErr` is `Err(e)` from the task join. -/
inductive BatchResult where
  | ok
  | submitErr (e : String)
  | joinErr (e : String)
deriving DecidableEq

/-- Whether a batch result is the fully successful case. -/
def BatchResult.isOk : BatchResult → Bool
  | .ok => true
  | _ => false

/-- The data-flow fields of the `TransactionLog` record built at lines
227-237.  The wall-clock fields (`match_time_ms`, `post_time_ms`,
`receive_time_ms`), the constant `tx_id`/`gas_used placeholders, and nothing
else depend on the computation embedded here, so they are omitted. -/
structure TransactionLog where
  total_amount : Nat
  matches_len : Nat
  buy_orders : Nat
  sell_orders : Nat
deriving DecidableEq

/-- Observable effects of one `match_orders` round: whether
`order_manager.clear_orders()` was invoked, the `TransactionLog` records sent
over `log_sender` in order, and the returned value (`none` for `Ok(())`,
`some e` for `Err(MatchOrdersError(e))`). -/
structure RoundEffects where
  cleared : Bool
  logs : List TransactionLog
  outcome : Option String
deriving DecidableEq

/-- The result loop at lines 223-251: for each joined task result in task
order, a success sends one copy of the round's log record and continues; the
first failure returns the error immediately, sending nothing further. -/
def processResults (log : TransactionLog) : List BatchResult → List TransactionLog × Option String
  | [] => ([], none)
  | .ok :: rest =>
    let r := processResults log rest
    (log :: r.1, r.2)
  | .submitErr e :: _ => ([], some e)
  | .joinErr e :: _ => ([], some e)

/-- Embedding of `SparkMatcher::match_orders` after the snapshot: run the
matching loop; if no matches, return `Ok` at once (line 156) with no clear and
no log; otherwise submit the batches — their outcomes are the environment's
input `results`, one per batch in batch order — then invoke `clear_orders`
unconditionally (line 221) and run the result loop.  The log record carries
the loop's `total_amount`, `matches_len`, and the final queue depths, as at
lines 227-237. -/
def match_orders (buys sells : List SpotOrder) (results : List BatchResult) : RoundEffects :=
  let r := matchLoop buys sells
  if r.1.length = 0 then RoundEffects.mk false [] none
  else
    let log := TransactionLog.mk (sumFills r.1) r.1.length r.2.1.length r.2.2.length
    let pr := processResults log results
    RoundEffects.mk true pr.1 pr.2

/-- A submitting identity: the main wallet's market contract or one of the
`additional_wallets` (numbered from 1, wallet `i` being
`additional_wallets[i-1]`). -/
inductive Identity where
  | primary
  | secondary (i : Nat)
deriving DecidableEq

/-- The wallet chosen for batch index `i` (lines 180-191): index 0 uses the
main market, `1 ≤ i ≤ additional_wallets.len()` uses
`additional_wallets[i-1]`, anything beyond falls back to the main market.
The choice reads only the index, never the chunk's contents. -/
def identityFor (numAdditional i : Nat) : Identity :=
  if i = 0 then Identity.primary
  else if i ≤ numAdditional then Identity.secondary i
  else Identity.primary

/-- Number of `additional_wallets` created in `SparkMatcher::new`:
`(1..3).map(...)` yields exactly 2. -/
def numAdditionalWallets : Nat := 2

/-- Whether a character is a hexadecimal digit. -/
def isHexDigit (c : Char) : Bool :=
  c.isDigit || ('a' ≤ c && c ≤ 'f') || ('A' ≤ c && c ≤ 'F')

/-- Numeric value of a hexadecimal digit. -/
def hexVal (c : Char) : Nat :=
  if c.isDigit then c.toNat - 48
  else if 'a' ≤ c && c ≤ 'f' then c.toNat - 87
  else if 'A' ≤ c && c ≤ 'F' then c.toNat - 55
  else 0

/-- Modelled from the spec: `Bits256::from_hex_str` of the external `fuels`
library (the settlement-layer collaborator is "an opaque submission channel").
It strips an optional `0x`, then requires exactly 64 hexadecimal digits
(32 bytes); on success it denotes the 256-bit value, otherwise it fails —
which line 198/199's `.unwrap()` turns into a panic. -/
def from_hex_str (s : String) : Option Nat :=
  let cs :=
    match s.toList with
    | '0' :: 'x' :: rest => rest
    | other => other
  if cs.length = 64 ∧ cs.all isHexDigit = true then
    some (cs.foldl (fun acc c => 16 * acc + hexVal c) 0)
  else none

/-- The id conversion for one chunk (lines 194-202): for each fill in order,
parse the buy id then the sell id; any parse failure is the `.unwrap()` panic,
modelled as `none`. -/
def chunk_bits256_ids : List Fill → Option (List Nat)
  | [] => some []
  | f :: rest =>
    match from_hex_str f.buyId, from_hex_str f.sellId, chunk_bits256_ids rest with
    | some b, some s, some ids => some (b :: s :: ids)
    | _, _, _ => none

/-- The id conversions performed across all batches of a round, in batch
order; `none` if any chunk's conversion panics. -/
def convert_all_chunks : List (List Fill) → Option (List (List Nat))
  | [] => some []
  | c :: cs =>
    match chunk_bits256_ids c, convert_all_chunks cs with
    | some ids, some rest => some (ids :: rest)
    | _, _ => none

/-! ### Lemmas about the heap-pop models -/

theorem popMaxBuy_eq_none {l : List SpotOrder} : popMaxBuy l = none ↔ l = [] := by
  cases l with
  | nil => simp [popMaxBuy]
  | cons o t =>
    simp only [popMaxBuy]
    cases ht : popMaxBuy t with
    | none => simp
    | some p =>
      obtain ⟨m, rest'⟩ := p
      by_cases hc : m.price ≤ o.price <;> simp [hc]

theorem popMinSell_eq_none {l : List SpotOrder} : popMinSell l = none ↔ l = [] := by
  cases l with
  | nil => simp [popMinSell]
  | cons o t =>
    simp only [popMinSell]
    cases ht : popMinSell t with
    | none => simp
    | some p =>
      obtain ⟨m, rest'⟩ := p
      by_cases hc : o.price ≤ m.price <;> simp [hc]

theorem popMaxBuy_perm : ∀ {l : List SpotOrder} {b : SpotOrder} {rest : List SpotOrder},
    popMaxBuy l = some (b, rest) → l.Perm (b :: rest) := by
  intro l
  induction l with
  | nil => intro b rest h; simp [popMaxBuy] at h
  | cons o t ih =>
    intro b rest h
    simp only [popMaxBuy] at h
    cases ht : popMaxBuy t with
    | none =>
      rw [ht] at h
      simp only [Option.some.injEq, Prod.mk.injEq] at h
      obtain ⟨h1, h2⟩ := h
      subst h1; subst h2
      exact List.Perm.refl _
    | some p =>
      obtain ⟨m, rest'⟩ := p
      rw [ht] at h
      simp only at h
      split at h
      · simp only [Option.some.injEq, Prod.mk.injEq] at h
        obtain ⟨h1, h2⟩ := h
        subst h1; subst h2
        exact List.Perm.refl _
      · simp only [Option.some.injEq, Prod.mk.injEq] at h
        obtain ⟨h1, h2⟩ := h
        subst h1; subst h2
        exact List.Perm.trans ((ih ht).cons o) (List.Perm.swap _ _ _)

theorem popMinSell_perm : ∀ {l : List SpotOrder} {s : SpotOrder} {rest : List SpotOrder},
    popMinSell l = some (s, rest) → l.Perm (s :: rest) := by
  intro l
  induction l with
  | nil => intro s rest h; simp [popMinSell] at h
  | cons o t ih =>
    intro s rest h
    simp only [popMinSell] at h
    cases ht : popMinSell t with
    | none =>
      rw [ht] at h
      simp only [Option.some.injEq, Prod.mk.injEq] at h
      obtain ⟨h1, h2⟩ := h
      subst h1; subst h2
      exact List.Perm.refl _
    | some p =>
      obtain ⟨m, rest'⟩ := p
      rw [ht] at h
      simp only at h
      split at h
      · simp only [Option.some.injEq, Prod.mk.injEq] at h
        obtain ⟨h1, h2⟩ := h
        subst h1; subst h2
        exact List.Perm.refl _
      · simp only [Option.some.injEq, Prod.mk.injEq] at h
        obtain ⟨h1, h2⟩ := h
        subst h1; subst h2
        exact List.Perm.trans ((ih ht).cons o) (List.Perm.swap _ _ _)

theorem popMaxBuy_max : ∀ {l : List SpotOrder} {b : SpotOrder} {rest : List SpotOrder},
    popMaxBuy l = some (b, rest) → ∀ x ∈ rest, x.price ≤ b.price := by
  intro l
  induction l with
  | nil => intro b rest h; simp [popMaxBuy] at h
  | cons o t ih =>
    intro b rest h
    simp only [popMaxBuy] at h
    cases ht : popMaxBuy t with
    | none =>
      rw [ht] at h
      simp only [Option.some.injEq, Prod.mk.injEq] at h
      obtain ⟨h1, h2⟩ := h
      subst h1; subst h2
      have : t = [] := popMaxBuy_eq_none.mp ht
      subst this
      intro x hx; simp at hx
    | some p =>
      obtain ⟨m, rest'⟩ := p
      rw [ht] at h
      simp only at h
      split at h
      · rename_i hle
        simp only [Option.some.injEq, Prod.mk.injEq] at h
        obtain ⟨h1, h2⟩ := h
        subst h1; subst h2
        intro x hx
        have hxmem : x ∈ m :: rest' := ((popMaxBuy_perm ht).mem_iff).mp hx
        rcases List.mem_cons.mp hxmem with h | h
        · subst h; exact hle
        · exact le_trans (ih ht x h) hle
      · rename_i hnle
        simp only [Option.some.injEq, Prod.mk.injEq] at h
        obtain ⟨h1, h2⟩ := h
        subst h1; subst h2
        intro x hx
        rcases List.mem_cons.mp hx with h | h
        · subst h; omega
        · exact ih ht x h

theorem popMinSell_min : ∀ {l : List SpotOrder} {s : SpotOrder} {rest : List SpotOrder},
    popMinSell l = some (s, rest) → ∀ x ∈ rest, s.price ≤ x.price := by
  intro l
  induction l with
  | nil => intro s rest h; simp [popMinSell] at h
  | cons o t ih =>
    intro s rest h
    simp only [popMinSell] at h
    cases ht : popMinSell t with
    | none =>
      rw [ht] at h
      simp only [Option.some.injEq, Prod.mk.injEq] at h
      obtain ⟨h1, h2⟩ := h
      subst h1; subst h2
      have : t = [] := popMinSell_eq_none.mp ht
      subst this
      intro x hx; simp at hx
    | some p =>
      obtain ⟨m, rest'⟩ := p
      rw [ht] at h
      simp only at h
      split at h
      · rename_i hle
        simp only [Option.some.injEq, Prod.mk.injEq] at h
        obtain ⟨h1, h2⟩ := h
        subst h1; subst h2
        intro x hx
        have hxmem : x ∈ m :: rest' := ((popMinSell_perm ht).mem_iff).mp hx
        rcases List.mem_cons.mp hxmem with h | h
        · subst h; exact hle
        · exact le_trans hle (ih ht x h)
      · rename_i hnle
        simp only [Option.some.injEq, Prod.mk.injEq] at h
        obtain ⟨h1, h2⟩ := h
        subst h1; subst h2
        intro x hx
        rcases List.mem_cons.mp hx with h | h
        · subst h; omega
        · exact ih ht x h

theorem sumAmounts_of_perm {l l' : List SpotOrder} (h : l.Perm l') :
    sumAmounts l = sumAmounts l' :=
  List.Perm.sum_eq (h.map SpotOrder.amount)

theorem sumAmounts_cons (o : SpotOrder) (l : List SpotOrder) :
    sumAmounts (o :: l) = o.amount + sumAmounts l := by
  simp [sumAmounts]

/-! ### Fuel sufficiency and one-step unfoldings of the matching loop -/

theorem reEnqueue_length (o : SpotOrder) (m : Nat) (q : List SpotOrder) :
    (reEnqueue o m q).length ≤ q.length + 1 := by
  unfold reEnqueue; split <;> simp

theorem reEnqueue_measure (b s : SpotOrder) (buys' sells' : List SpotOrder) :
    (reEnqueue b (min b.amount s.amount) buys').length +
      (reEnqueue s (min b.amount s.amount) sells').length ≤
      buys'.length + sells'.length + 1 := by
  rcases Nat.le_total b.amount s.amount with h | h
  · rw [Nat.min_eq_left h]
    have h1 : reEnqueue b b.amount buys' = buys' := by
      unfold reEnqueue; simp
    rw [h1]
    have h2 := reEnqueue_length s b.amount sells'
    omega
  · rw [Nat.min_eq_right h]
    have h1 : reEnqueue s s.amount sells' = sells' := by
      unfold reEnqueue; simp
    rw [h1]
    have h2 := reEnqueue_length b s.amount buys'
    omega

theorem matchLoopF_mono : ∀ (f1 : Nat), ∀ (f2 : Nat) (buys sells : List SpotOrder),
    buys.length + sells.length < f1 → buys.length + sells.length < f2 →
    matchLoopF f1 buys sells = matchLoopF f2 buys sells := by
  intro f1
  induction f1 with
  | zero => intro f2 buys sells h1 h2; omega
  | succ g1 ih =>
    intro f2 buys sells h1 h2
    match f2, h2 with
    | g2 + 1, h2 =>
      cases hb : popMaxBuy buys with
      | none =>
        cases hs : popMinSell sells with
        | none => simp [matchLoopF, hb, hs]
        | some ps => obtain ⟨s, sells'⟩ := ps; simp [matchLoopF, hb, hs]
      | some pb =>
        obtain ⟨b, buys'⟩ := pb
        cases hs : popMinSell sells with
        | none => simp [matchLoopF, hb, hs]
        | some ps =>
          obtain ⟨s, sells'⟩ := ps
          have hlb := (popMaxBuy_perm hb).length_eq
          have hls := (popMinSell_perm hs).length_eq
          simp only [List.length_cons] at hlb hls
          by_cases hp : s.price ≤ b.price
          · have hm := reEnqueue_measure b s buys' sells'
            have hrec := ih g2 (reEnqueue b (min b.amount s.amount) buys')
              (reEnqueue s (min b.amount s.amount) sells') (by omega) (by omega)
            simp [matchLoopF, hb, hs, hp, hrec]
          · have hrec := ih g2 buys' (s :: sells')
              (by simp only [List.length_cons]; omega)
              (by simp only [List.length_cons]; omega)
            simp [matchLoopF, hb, hs, hp, hrec]

theorem matchLoopF_isSome : ∀ (f : Nat) (buys sells : List SpotOrder),
    buys.length + sells.length < f → (matchLoopF f buys sells).isSome = true := by
  intro f
  induction f with
  | zero => intro buys sells h; omega
  | succ g ih =>
    intro buys sells h
    cases hb : popMaxBuy buys with
    | none =>
      cases hs : popMinSell sells with
      | none => simp [matchLoopF, hb, hs]
      | some ps => obtain ⟨s, sells'⟩ := ps; simp [matchLoopF, hb, hs]
    | some pb =>
      obtain ⟨b, buys'⟩ := pb
      cases hs : popMinSell sells with
      | none => simp [matchLoopF, hb, hs]
      | some ps =>
        obtain ⟨s, sells'⟩ := ps
        have hlb := (popMaxBuy_perm hb).length_eq
        have hls := (popMinSell_perm hs).length_eq
        simp only [List.length_cons] at hlb hls
        by_cases hp : s.price ≤ b.price
        · have hm := reEnqueue_measure b s buys' sells'
          have hrec := ih (reEnqueue b (min b.amount s.amount) buys')
            (reEnqueue s (min b.amount s.amount) sells') (by omega)
          obtain ⟨st, hst⟩ := Option.isSome_iff_exists.mp hrec
          obtain ⟨fills, rb, rs⟩ := st
          simp [matchLoopF, hb, hs, hp, hst]
        · have hrec := ih buys' (s :: sells') (by simp only [List.length_cons]; omega)
          obtain ⟨st, hst⟩ := Option.isSome_iff_exists.mp hrec
          simp [matchLoopF, hb, hs, hp, hst]

theorem matchLoopF_eq (f : Nat) (buys sells : List SpotOrder)
    (h : buys.length + sells.length < f) :
    matchLoopF f buys sells = some (matchLoop buys sells) := by
  have hm := matchLoopF_mono f (buys.length + sells.length + 1) buys sells h (by omega)
  have hsome := matchLoopF_isSome (buys.length + sells.length + 1) buys sells (by omega)
  obtain ⟨st, hst⟩ := Option.isSome_iff_exists.mp hsome
  rw [hm, hst]
  unfold matchLoop
  rw [hst]
  simp

theorem matchLoop_bothEmpty (buys sells : List SpotOrder)
    (hb : popMaxBuy buys = none) (hs : popMinSell sells = none) :
    matchLoop buys sells = ([], [], []) := by
  unfold matchLoop
  simp [matchLoopF, hb, hs]

theorem matchLoop_buyEmpty (buys sells : List SpotOrder) (s : SpotOrder)
    (sells' : List SpotOrder)
    (hb : popMaxBuy buys = none) (hs : popMinSell sells = some (s, sells')) :
    matchLoop buys sells = ([], [], sells') := by
  unfold matchLoop
  simp [matchLoopF, hb, hs]

theorem matchLoop_sellEmpty (buys sells : List SpotOrder) (b : SpotOrder)
    (buys' : List SpotOrder)
    (hb : popMaxBuy buys = some (b, buys')) (hs : popMinSell sells = none) :
    matchLoop buys sells = ([], buys', []) := by
  unfold matchLoop
  simp [matchLoopF, hb, hs]

theorem matchLoop_cross (buys sells : List SpotOrder) (b s : SpotOrder)
    (buys' sells' : List SpotOrder)
    (hb : popMaxBuy buys = some (b, buys')) (hs : popMinSell sells = some (s, sells'))
    (hp : s.price ≤ b.price) :
    matchLoop buys sells =
      (Fill.mk b.id s.id (min b.amount s.amount) ::
        (matchLoop (reEnqueue b (min b.amount s.amount) buys')
          (reEnqueue s (min b.amount s.amount) sells')).1,
       (matchLoop (reEnqueue b (min b.amount s.amount) buys')
          (reEnqueue s (min b.amount s.amount) sells')).2.1,
       (matchLoop (reEnqueue b (min b.amount s.amount) buys')
          (reEnqueue s (min b.amount s.amount) sells')).2.2) := by
  have hlb := (popMaxBuy_perm hb).length_eq
  have hls := (popMinSell_perm hs).length_eq
  simp only [List.length_cons] at hlb hls
  have hm := reEnqueue_measure b s buys' sells'
  rcases hres : matchLoop (reEnqueue b (min b.amount s.amount) buys')
      (reEnqueue s (min b.amount s.amount) sells') with ⟨fills, rb, rs⟩
  have hrec := matchLoopF_eq (buys.length + sells.length)
    (reEnqueue b (min b.amount s.amount) buys')
    (reEnqueue s (min b.amount s.amount) sells') (by omega)
  rw [hres] at hrec
  have kmain := matchLoopF_eq (buys.length + sells.length + 1) buys sells (by omega)
  simp only [matchLoopF, hb, hs, if_pos hp, hrec] at kmain
  simp only [Option.some.injEq] at kmain
  exact kmain.symm

theorem matchLoop_noncross (buys sells : List SpotOrder) (b s : SpotOrder)
    (buys' sells' : List SpotOrder)
    (hb : popMaxBuy buys = some (b, buys')) (hs : popMinSell sells = some (s, sells'))
    (hp : b.price < s.price) :
    matchLoop buys sells = matchLoop buys' (s :: sells') := by
  have hlb := (popMaxBuy_perm hb).length_eq
  have hls := (popMinSell_perm hs).length_eq
  simp only [List.length_cons] at hlb hls
  have hrec := matchLoopF_eq (buys.length + sells.length) buys' (s :: sells')
    (by simp only [List.length_cons]; omega)
  have hnp : ¬ s.price ≤ b.price := by omega
  have kmain := matchLoopF_eq (buys.length + sells.length + 1) buys sells (by omega)
  simp only [matchLoopF, hb, hs, if_neg hnp, hrec] at kmain
  simp only [Option.some.injEq] at kmain
  exact kmain.symm

/-! ### Invariants of the matching loop -/

theorem sumFills_cons (f : Fill) (l : List Fill) :
    sumFills (f :: l) = f.amount + sumFills l := by
  simp [sumFills]

theorem sumAmounts_reEnqueue (o : SpotOrder) (m : Nat) (q : List SpotOrder) :
    sumAmounts (reEnqueue o m q) = (o.amount - m) + sumAmounts q := by
  unfold reEnqueue
  split
  · rw [sumAmounts_cons]
  · rename_i hng
    have h0 : o.amount - m = 0 := by omega
    rw [h0]
    simp

theorem reEnqueue_pos (o : SpotOrder) (m : Nat) (q : List SpotOrder)
    (hq : ∀ x ∈ q, 0 < x.amount) : ∀ x ∈ reEnqueue o m q, 0 < x.amount := by
  intro x hx
  unfold reEnqueue at hx
  split at hx
  · rename_i hg
    rcases List.mem_cons.mp hx with h | h
    · subst h; exact hg
    · exact hq x h
  · exact hq x hx

theorem matchLoop_fst_nil_left (sells : List SpotOrder) : (matchLoop [] sells).1 = [] := by
  cases hs : popMinSell sells with
  | none => rw [matchLoop_bothEmpty [] sells (by simp [popMaxBuy]) hs]
  | some p =>
    obtain ⟨s, sells'⟩ := p
    rw [matchLoop_buyEmpty [] sells s sells' (by simp [popMaxBuy]) hs]

theorem matchLoop_fst_nil_right (buys : List SpotOrder) : (matchLoop buys []).1 = [] := by
  cases hb : popMaxBuy buys with
  | none => rw [matchLoop_bothEmpty buys [] hb (by simp [popMinSell])]
  | some p =>
    obtain ⟨b, buys'⟩ := p
    rw [matchLoop_sellEmpty buys [] b buys' hb (by simp [popMinSell])]

theorem matchLoop_nocross : ∀ (n : Nat) (buys sells : List SpotOrder), buys.length ≤ n →
    (∀ b ∈ buys, ∀ s ∈ sells, b.price < s.price) →
    (matchLoop buys sells).1 = [] ∧ (sells ≠ [] → (matchLoop buys sells).2.1 = []) := by
  intro n
  induction n with
  | zero =>
    intro buys sells hlen h
    have hbuys : buys = [] := List.eq_nil_of_length_eq_zero (by omega)
    subst hbuys
    refine ⟨matchLoop_fst_nil_left sells, ?_⟩
    intro hne
    cases hs : popMinSell sells with
    | none => exact absurd (popMinSell_eq_none.mp hs) hne
    | some p =>
      obtain ⟨s, sells'⟩ := p
      rw [matchLoop_buyEmpty [] sells s sells' (by simp [popMaxBuy]) hs]
  | succ n ih =>
    intro buys sells hlen h
    cases hb : popMaxBuy buys with
    | none =>
      have hbuys := popMaxBuy_eq_none.mp hb
      subst hbuys
      refine ⟨matchLoop_fst_nil_left sells, ?_⟩
      intro hne
      cases hs : popMinSell sells with
      | none => exact absurd (popMinSell_eq_none.mp hs) hne
      | some p =>
        obtain ⟨s, sells'⟩ := p
        rw [matchLoop_buyEmpty [] sells s sells' (by simp [popMaxBuy]) hs]
    | some pb =>
      obtain ⟨b, buys'⟩ := pb
      cases hs : popMinSell sells with
      | none =>
        have hsells := popMinSell_eq_none.mp hs
        subst hsells
        refine ⟨matchLoop_fst_nil_right buys, ?_⟩
        intro hne
        exact absurd rfl hne
      | some ps =>
        obtain ⟨s, sells'⟩ := ps
        have hbmem : b ∈ buys := ((popMaxBuy_perm hb).mem_iff).mpr (List.mem_cons_self b buys')
        have hsmem : s ∈ sells := ((popMinSell_perm hs).mem_iff).mpr (List.mem_cons_self s sells')
        have hlt : b.price < s.price := h b hbmem s hsmem
        rw [matchLoop_noncross buys sells b s buys' sells' hb hs hlt]
        have hlb := (popMaxBuy_perm hb).length_eq
        simp only [List.length_cons] at hlb
        have hall : ∀ b' ∈ buys', ∀ s' ∈ s :: sells', b'.price < s'.price := by
          intro b' hb' s' hs'
          have hb'mem : b' ∈ buys := ((popMaxBuy_perm hb).mem_iff).mpr (List.mem_cons_of_mem _ hb')
          have hs'mem : s' ∈ sells := by
            rcases List.mem_cons.mp hs' with h1 | h1
            · subst h1; exact hsmem
            · exact ((popMinSell_perm hs).mem_iff).mpr (List.mem_cons_of_mem _ h1)
          exact h b' hb'mem s' hs'mem
        have ih' := ih buys' (s :: sells') (by omega) hall
        exact ⟨ih'.1, fun _ => ih'.2 (by simp)⟩

theorem conservation_aux : ∀ (n : Nat) (buys sells : List SpotOrder),
    buys.length + sells.length ≤ n →
    sumFills (matchLoop buys sells).1 ≤ sumAmounts buys ∧
    sumFills (matchLoop buys sells).1 ≤ sumAmounts sells := by
  intro n
  induction n with
  | zero =>
    intro buys sells hlen
    have hb : buys = [] := List.eq_nil_of_length_eq_zero (by omega)
    subst hb
    rw [matchLoop_fst_nil_left sells]
    simp [sumFills]
  | succ n ih =>
    intro buys sells hlen
    cases hb : popMaxBuy buys with
    | none =>
      have := popMaxBuy_eq_none.mp hb
      subst this
      rw [matchLoop_fst_nil_left sells]
      simp [sumFills]
    | some pb =>
      obtain ⟨b, buys'⟩ := pb
      cases hs : popMinSell sells with
      | none =>
        have := popMinSell_eq_none.mp hs
        subst this
        rw [matchLoop_fst_nil_right buys]
        simp [sumFills]
      | some ps =>
        obtain ⟨s, sells'⟩ := ps
        have hsb : sumAmounts buys = b.amount + sumAmounts buys' := by
          rw [sumAmounts_of_perm (popMaxBuy_perm hb), sumAmounts_cons]
        have hss : sumAmounts sells = s.amount + sumAmounts sells' := by
          rw [sumAmounts_of_perm (popMinSell_perm hs), sumAmounts_cons]
        have hlb := (popMaxBuy_perm hb).length_eq
        have hls := (popMinSell_perm hs).length_eq
        simp only [List.length_cons] at hlb hls
        by_cases hp : s.price ≤ b.price
        · rw [matchLoop_cross buys sells b s buys' sells' hb hs hp]
          have hm := reEnqueue_measure b s buys' sells'
          have ih' := ih (reEnqueue b (min b.amount s.amount) buys')
            (reEnqueue s (min b.amount s.amount) sells') (by omega)
          have hsb' := sumAmounts_reEnqueue b (min b.amount s.amount) buys'
          have hss' := sumAmounts_reEnqueue s (min b.amount s.amount) sells'
          have hmin1 : min b.amount s.amount ≤ b.amount := Nat.min_le_left _ _
          have hmin2 : min b.amount s.amount ≤ s.amount := Nat.min_le_right _ _
          simp only [sumFills_cons]
          constructor <;> omega
        · have hlt : b.price < s.price := by omega
          rw [matchLoop_noncross buys sells b s buys' sells' hb hs hlt]
          have ih' := ih buys' (s :: sells') (by simp only [List.length_cons]; omega)
          have hcons : sumAmounts (s :: sells') = s.amount + sumAmounts sells' :=
            sumAmounts_cons _ _
          constructor <;> omega

theorem fills_positive_aux : ∀ (n : Nat) (buys sells : List SpotOrder),
    buys.length + sells.length ≤ n →
    (∀ o ∈ buys, 0 < o.amount) → (∀ o ∈ sells, 0 < o.amount) →
    ∀ f ∈ (matchLoop buys sells).1, 0 < f.amount := by
  intro n
  induction n with
  | zero =>
    intro buys sells hlen hpb hps
    have hb : buys = [] := List.eq_nil_of_length_eq_zero (by omega)
    subst hb
    rw [matchLoop_fst_nil_left sells]
    intro f hf
    simp at hf
  | succ n ih =>
    intro buys sells hlen hpb hps
    cases hb : popMaxBuy buys with
    | none =>
      have := popMaxBuy_eq_none.mp hb
      subst this
      rw [matchLoop_fst_nil_left sells]
      intro f hf
      simp at hf
    | some pb =>
      obtain ⟨b, buys'⟩ := pb
      cases hs : popMinSell sells with
      | none =>
        have := popMinSell_eq_none.mp hs
        subst this
        rw [matchLoop_fst_nil_right buys]
        intro f hf
        simp at hf
      | some ps =>
        obtain ⟨s, sells'⟩ := ps
        have hlb := (popMaxBuy_perm hb).length_eq
        have hls := (popMinSell_perm hs).length_eq
        simp only [List.length_cons] at hlb hls
        have hbmem : b ∈ buys := ((popMaxBuy_perm hb).mem_iff).mpr (List.mem_cons_self b buys')
        have hsmem : s ∈ sells := ((popMinSell_perm hs).mem_iff).mpr (List.mem_cons_self s sells')
        have hpb' : ∀ o ∈ buys', 0 < o.amount := fun o ho =>
          hpb o (((popMaxBuy_perm hb).mem_iff).mpr (List.mem_cons_of_mem _ ho))
        have hps' : ∀ o ∈ sells', 0 < o.amount := fun o ho =>
          hps o (((popMinSell_perm hs).mem_iff).mpr (List.mem_cons_of_mem _ ho))
        by_cases hp : s.price ≤ b.price
        · rw [matchLoop_cross buys sells b s buys' sells' hb hs hp]
          intro f hf
          rcases List.mem_cons.mp hf with h1 | h1
          · subst h1
            have h2 : 0 < b.amount := hpb b hbmem
            have h3 : 0 < s.amount := hps s hsmem
            simp only [Fill.mk.injEq]
            exact Nat.lt_min.mpr ⟨h2, h3⟩
          · have hm := reEnqueue_measure b s buys' sells'
            exact ih (reEnqueue b (min b.amount s.amount) buys')
              (reEnqueue s (min b.amount s.amount) sells') (by omega)
              (reEnqueue_pos b _ buys' hpb') (reEnqueue_pos s _ sells' hps') f h1
        · have hlt : b.price < s.price := by omega
          rw [matchLoop_noncross buys sells b s buys' sells' hb hs hlt]
          have hps'' : ∀ o ∈ s :: sells', 0 < o.amount := by
            intro o ho
            rcases List.mem_cons.mp ho with h1 | h1
            · rw [h1]; exact hps s hsmem
            · exact hps' o h1
          exact ih buys' (s :: sells') (by simp only [List.length_cons]; omega) hpb' hps''

/-! ### Lemmas about batching, result processing and id conversion -/

theorem chunksOf2_flatten : ∀ (l : List α), (chunksOf2 l).flatten = l := by
  intro l
  induction l using chunksOf2.induct with
  | case1 => simp [chunksOf2]
  | case2 a => simp [chunksOf2]
  | case3 a b t ih => simp [chunksOf2, ih]

theorem chunksOf2_bounds : ∀ (l : List α), ∀ c ∈ chunksOf2 l, 1 ≤ c.length ∧ c.length ≤ 2 := by
  intro l
  induction l using chunksOf2.induct with
  | case1 => simp [chunksOf2]
  | case2 a => simp [chunksOf2]
  | case3 a b t ih =>
    intro c hc
    simp only [chunksOf2, List.mem_cons] at hc
    rcases hc with h | h
    · rw [h]; simp
    · exact ih c h

theorem chunksOf2_dropLast : ∀ (l : List α), ∀ c ∈ (chunksOf2 l).dropLast, c.length = 2 := by
  intro l
  induction l using chunksOf2.induct with
  | case1 => simp [chunksOf2]
  | case2 a => simp [chunksOf2]
  | case3 a b t ih =>
    intro c hc
    simp only [chunksOf2] at hc
    cases ht : chunksOf2 t with
    | nil => rw [ht] at hc; simp at hc
    | cons c0 cs =>
      rw [ht] at hc
      rw [List.dropLast_cons₂] at hc
      rcases List.mem_cons.mp hc with h | h
      · rw [h]; simp
      · have := ih c
        rw [ht] at this
        exact this h

theorem processResults_logs_length (log : TransactionLog) :
    ∀ (results : List BatchResult),
    (processResults log results).1.length = (results.takeWhile BatchResult.isOk).length := by
  intro results
  induction results with
  | nil => simp [processResults, List.takeWhile]
  | cons r rest ih =>
    cases r with
    | ok => simp [processResults, List.takeWhile_cons, BatchResult.isOk, ih]
    | submitErr e => simp [processResults, List.takeWhile_cons, BatchResult.isOk]
    | joinErr e => simp [processResults, List.takeWhile_cons, BatchResult.isOk]

theorem processResults_fail (log : TransactionLog) :
    ∀ (results : List BatchResult), (∃ r ∈ results, r.isOk = false) →
    (processResults log results).2.isSome = true := by
  intro results
  induction results with
  | nil => intro h; simp at h
  | cons r rest ih =>
    intro h
    cases r with
    | ok =>
      simp only [processResults]
      apply ih
      rcases h with ⟨r', hr', hfalse⟩
      rcases List.mem_cons.mp hr' with h1 | h1
      · exfalso; rw [h1] at hfalse; simp [BatchResult.isOk] at hfalse
      · exact ⟨r', h1, hfalse⟩
    | submitErr e => simp [processResults]
    | joinErr e => simp [processResults]

theorem processResults_allOk (log : TransactionLog) :
    ∀ (results : List BatchResult), (∀ r ∈ results, r.isOk = true) →
    (processResults log results).2 = none ∧
    (processResults log results).1.length = results.length := by
  intro results
  induction results with
  | nil => intro h; simp [processResults]
  | cons r rest ih =>
    intro h
    cases r with
    | ok =>
      have hrest := ih (fun r' hr' => h r' (List.mem_cons_of_mem _ hr'))
      simp only [processResults, List.length_cons]
      exact ⟨hrest.1, by rw [hrest.2]⟩
    | submitErr e =>
      exfalso
      have := h (BatchResult.submitErr e) (List.mem_cons_self _ _)
      simp [BatchResult.isOk] at this
    | joinErr e =>
      exfalso
      have := h (BatchResult.joinErr e) (List.mem_cons_self _ _)
      simp [BatchResult.isOk] at this

theorem chunk_bits256_ids_isSome : ∀ (c : List Fill),
    (∀ f ∈ c, (from_hex_str f.buyId).isSome = true ∧ (from_hex_str f.sellId).isSome = true) →
    (chunk_bits256_ids c).isSome = true := by
  intro c
  induction c with
  | nil => intro h; simp [chunk_bits256_ids]
  | cons f rest ih =>
    intro h
    have hf := h f (List.mem_cons_self f rest)
    obtain ⟨vb, hvb⟩ := Option.isSome_iff_exists.mp hf.1
    obtain ⟨vs, hvs⟩ := Option.isSome_iff_exists.mp hf.2
    have hr := ih (fun f' hf' => h f' (List.mem_cons_of_mem _ hf'))
    obtain ⟨ids, hids⟩ := Option.isSome_iff_exists.mp hr
    simp [chunk_bits256_ids, hvb, hvs, hids]

theorem chunk_bits256_ids_none : ∀ (c : List Fill) (f : Fill), f ∈ c →
    (from_hex_str f.buyId = none ∨ from_hex_str f.sellId = none) →
    chunk_bits256_ids c = none := by
  intro c
  induction c with
  | nil => intro f hf; simp at hf
  | cons g rest ih =>
    intro f hf hbad
    simp only [chunk_bits256_ids]
    rcases List.mem_cons.mp hf with h1 | h1
    · rw [h1] at hbad
      rcases hbad with h2 | h2
      · cases hs2 : from_hex_str g.sellId <;>
          cases hr2 : chunk_bits256_ids rest <;> simp [h2, hs2, hr2]
      · cases hb2 : from_hex_str g.buyId <;>
          cases hr2 : chunk_bits256_ids rest <;> simp [h2, hb2, hr2]
    · have hr2 := ih f h1 hbad
      cases hb2 : from_hex_str g.buyId <;>
        cases hs2 : from_hex_str g.sellId <;> simp [hr2, hb2, hs2]

theorem convert_all_chunks_isSome : ∀ (cs : List (List Fill)),
    (∀ c ∈ cs, (chunk_bits256_ids c).isSome = true) →
    (convert_all_chunks cs).isSome = true := by
  intro cs
  induction cs with
  | nil => intro h; simp [convert_all_chunks]
  | cons c rest ih =>
    intro h
    obtain ⟨ids, hids⟩ := Option.isSome_iff_exists.mp (h c (List.mem_cons_self c rest))
    obtain ⟨others, hothers⟩ :=
      Option.isSome_iff_exists.mp (ih (fun c' hc' => h c' (List.mem_cons_of_mem _ hc')))
    simp [convert_all_chunks, hids, hothers]

theorem convert_all_chunks_none : ∀ (cs : List (List Fill)) (c : List Fill), c ∈ cs →
    chunk_bits256_ids c = none → convert_all_chunks cs = none := by
  intro cs
  induction cs with
  | nil => intro c hc; simp at hc
  | cons c0 rest ih =>
    intro c hc hnone
    simp only [convert_all_chunks]
    rcases List.mem_cons.mp hc with h1 | h1
    · rw [← h1, hnone]
    · have := ih c h1 hnone
      cases hc0 : chunk_bits256_ids c0 <;> simp [this, hc0]

/-! ### Claim theorems -/

/-- C5: for every matching round, the sum of `matchedAmount` over all emitted
fills is at most the sum of the original resting buy-side amounts and at most
the sum of the original resting sell-side amounts. -/
theorem conservation (buys sells : List SpotOrder) :
    sumFills (matchLoop buys sells).1 ≤ sumAmounts buys ∧
    sumFills (matchLoop buys sells).1 ≤ sumAmounts sells :=
  conservation_aux (buys.length + sells.length) buys sells (le_refl _)

/-- C9: the matching loop is total.  For every finite pair of buy and sell
collections the fuelled loop reaches its exit within
`buys.length + sells.length + 1` iterations (it never returns the
out-of-fuel `none`), producing the finite fill list of `matchLoop`.  This
holds for all inputs, in particular for well-formed (positive-amount)
orders. -/
theorem matching_total (buys sells : List SpotOrder) :
    matchLoopF (buys.length + sells.length + 1) buys sells =
      some (matchLoop buys sells) :=
  matchLoopF_eq (buys.length + sells.length + 1) buys sells (by omega)

/-- C6: with exactly one buy and one sell and `buy.price ≥ sell.price`
(equality included) the matcher emits exactly one fill of
`min (buyAmount, sellAmount)`; and whenever every buy's price is below every
sell's price, no fill is emitted. -/
theorem crossing_correctness :
    (∀ b s : SpotOrder, s.price ≤ b.price →
      (matchLoop [b] [s]).1 = [Fill.mk b.id s.id (min b.amount s.amount)]) ∧
    (∀ buys sells : List SpotOrder, (∀ b ∈ buys, ∀ s ∈ sells, b.price < s.price) →
      (matchLoop buys sells).1 = []) := by
  constructor
  · intro b s hp
    have hb : popMaxBuy [b] = some (b, []) := by simp [popMaxBuy]
    have hs : popMinSell [s] = some (s, []) := by simp [popMinSell]
    have hnil : (matchLoop (reEnqueue b (min b.amount s.amount) [])
        (reEnqueue s (min b.amount s.amount) [])).1 = [] := by
      rcases Nat.le_total b.amount s.amount with h | h
      · have hre : reEnqueue b (min b.amount s.amount) [] = [] := by
          unfold reEnqueue
          rw [Nat.min_eq_left h]
          simp
        rw [hre]
        exact matchLoop_fst_nil_left _
      · have hre : reEnqueue s (min b.amount s.amount) [] = [] := by
          unfold reEnqueue
          rw [Nat.min_eq_right h]
          simp
        rw [hre]
        exact matchLoop_fst_nil_right _
    rw [matchLoop_cross [b] [s] b s [] [] hb hs hp]
    simp [hnil]
  · intro buys sells h
    exact (matchLoop_nocross buys.length buys sells (le_refl _) h).1

/-- Witness for C6 at concrete inputs: a crossing pair (prices 2 ≥ 1,
amounts 3 and 5) fills for 3; a non-crossing book (1 < 2) fills nothing. -/
theorem crossing_correctness_witness :
    (matchLoop [SpotOrder.mk "b" 2 3] [SpotOrder.mk "s" 1 5]).1 = [Fill.mk "b" "s" 3] ∧
    (matchLoop [SpotOrder.mk "x" 1 4] [SpotOrder.mk "y" 2 4]).1 = [] := by
  constructor
  · have h := crossing_correctness.1 (SpotOrder.mk "b" 2 3) (SpotOrder.mk "s" 1 5) (by decide)
    have hmin : min (SpotOrder.mk "b" 2 3).amount (SpotOrder.mk "s" 1 5).amount = 3 := by decide
    rw [hmin] at h
    exact h
  · exact crossing_correctness.2 [SpotOrder.mk "x" 1 4] [SpotOrder.mk "y" 2 4] (by decide)

/-- Counterexample to C2 as stated: with buys `B1` (price 3) and `B2`
(price 2) against the sell `S1` (price 5), no pair crosses; the claim says
every remaining buy — including the non-crossing one — is left unconsumed in
the final buy-side state, but the loop keeps popping and dropping buys, so
the final buy queue is empty and `B2` is not in it. -/
theorem noncross_cex :
    (matchLoop [SpotOrder.mk "B1" 3 1, SpotOrder.mk "B2" 2 1]
      [SpotOrder.mk "S1" 5 1]).2.1 = [] ∧
    ¬ (SpotOrder.mk "B2" 2 1 ∈
        (matchLoop [SpotOrder.mk "B1" 3 1, SpotOrder.mk "B2" 2 1]
          [SpotOrder.mk "S1" 5 1]).2.1) := by
  decide

/-- C2 (amended): when the popped best buy's price is below the popped best
sell's price, the buy is dropped permanently (never retried) and the sell is
pushed back, but the loop does not exit: it continues on the remaining buys.
No further fill is ever emitted from that point, and the loop keeps
consuming buys until the buy side is exhausted, so the final remaining
buy-side state is empty rather than containing the unmatched buys. -/
theorem noncross_drop_and_drain (buys sells buys' sells' : List SpotOrder)
    (b s : SpotOrder)
    (hb : popMaxBuy buys = some (b, buys'))
    (hs : popMinSell sells = some (s, sells'))
    (hlt : b.price < s.price) :
    matchLoop buys sells = matchLoop buys' (s :: sells') ∧
    (matchLoop buys sells).1 = [] ∧
    (matchLoop buys sells).2.1 = [] := by
  have heq := matchLoop_noncross buys sells b s buys' sells' hb hs hlt
  have hall : ∀ b' ∈ buys', ∀ s' ∈ s :: sells', b'.price < s'.price := by
    intro b' hb' s' hs'
    have h1 : b'.price ≤ b.price := popMaxBuy_max hb b' hb'
    have h2 : s.price ≤ s'.price := by
      rcases List.mem_cons.mp hs' with h | h
      · subst h; exact le_rfl
      · exact popMinSell_min hs s' h
    omega
  have hd := matchLoop_nocross buys'.length buys' (s :: sells') (le_refl _) hall
  exact ⟨heq, by rw [heq]; exact hd.1, by rw [heq]; exact hd.2 (by simp)⟩

/-- Witness for the amended C2: one non-crossing buy (price 5 against a
price-7 sell) is dropped, the loop continues on the empty buy queue, no fill
is emitted and the final buy queue is empty. -/
theorem noncross_drop_and_drain_witness :
    matchLoop [SpotOrder.mk "B1" 5 1] [SpotOrder.mk "S1" 7 1] =
      matchLoop [] [SpotOrder.mk "S1" 7 1] ∧
    (matchLoop [SpotOrder.mk "B1" 5 1] [SpotOrder.mk "S1" 7 1]).1 = [] ∧
    (matchLoop [SpotOrder.mk "B1" 5 1] [SpotOrder.mk "S1" 7 1]).2.1 = [] :=
  noncross_drop_and_drain [SpotOrder.mk "B1" 5 1] [SpotOrder.mk "S1" 7 1] [] []
    (SpotOrder.mk "B1" 5 1) (SpotOrder.mk "S1" 7 1) (by decide) (by decide) (by decide)

/-- Counterexample to C3 as stated: a buy with zero remaining amount that
crosses (price 10 ≥ 5) is not silently skipped — the code pushes a fill of
amount `min 0 3 = 0` referencing it, so not every emitted fill has
`matchedAmount > 0`. -/
theorem zero_fill_cex :
    (matchLoop [SpotOrder.mk "B0" 10 0] [SpotOrder.mk "S0" 5 3]).1 =
      [Fill.mk "B0" "S0" 0] ∧
    ¬ (∀ f ∈ (matchLoop [SpotOrder.mk "B0" 10 0] [SpotOrder.mk "S0" 5 3]).1,
        0 < f.amount) := by
  decide

/-- C3 (amended): when every order on both sides has positive remaining
amount — the precondition the spec assigns to the Order-Book collaborator —
every fill emitted by the matcher has `matchedAmount` strictly greater than
zero.  (A zero-amount order, if present, instead yields an emitted zero-amount
fill, per `zero_fill_cex`.) -/
theorem fills_positive (buys sells : List SpotOrder)
    (hb : ∀ o ∈ buys, 0 < o.amount) (hs : ∀ o ∈ sells, 0 < o.amount) :
    ∀ f ∈ (matchLoop buys sells).1, 0 < f.amount :=
  fills_positive_aux (buys.length + sells.length) buys sells (le_refl _) hb hs

/-- Witness for the amended C3: the positive-amount book from
`crossing_correctness_witness`'s first part emits the fill of amount 3, which
is positive. -/
theorem fills_positive_witness : 0 < (Fill.mk "bw" "sw" 4).amount :=
  fills_positive [SpotOrder.mk "bw" 6 4] [SpotOrder.mk "sw" 2 9]
    (by decide) (by decide) (Fill.mk "bw" "sw" 4) (by decide)

/-- Counterexample to C1 as stated: a round whose only batch fails still has
`clear_orders` invoked (it is called unconditionally right after the join,
before any result is inspected); and in a round whose first batch succeeds
and second fails, a Round Metrics record has already been sent, so "no record
is sent for that round" is also false. -/
theorem round_atomicity_cex :
    (match_orders [SpotOrder.mk "B" 2 1] [SpotOrder.mk "S" 1 1]
      [BatchResult.submitErr "e"]).cleared = true ∧
    (match_orders [SpotOrder.mk "B1" 9 1, SpotOrder.mk "B2" 9 1, SpotOrder.mk "B3" 9 1]
      [SpotOrder.mk "S1" 1 1, SpotOrder.mk "S2" 1 1, SpotOrder.mk "S3" 1 1]
      [BatchResult.ok, BatchResult.submitErr "e"]).logs ≠ [] := by
  decide

/-- C1 (amended): in a round with at least one fill and at least one failing
batch, `clear_orders` is still invoked (unconditionally, before results are
read), the round returns the error of the first failing result, and exactly
one Round Metrics record has been sent per successful batch preceding the
first failure in batch order. -/
theorem batch_failure_effects (buys sells : List SpotOrder) (results : List BatchResult)
    (hf : (matchLoop buys sells).1 ≠ [])
    (hr : ∃ r ∈ results, r.isOk = false) :
    (match_orders buys sells results).cleared = true ∧
    (match_orders buys sells results).outcome.isSome = true ∧
    (match_orders buys sells results).logs.length =
      (results.takeWhile BatchResult.isOk).length := by
  have hlen : ¬ (matchLoop buys sells).1.length = 0 := by
    intro h0
    exact hf (List.eq_nil_of_length_eq_zero h0)
  simp only [match_orders, if_neg hlen]
  exact ⟨trivial, processResults_fail _ results hr, processResults_logs_length _ results⟩

/-- Witness for the amended C1: one fill, one joining-failed batch — the book
is still cleared, the round errors, and zero records were sent (the failure
is first). -/
theorem batch_failure_effects_witness :
    (match_orders [SpotOrder.mk "Bw" 4 2] [SpotOrder.mk "Sw" 3 2]
      [BatchResult.joinErr "boom"]).cleared = true ∧
    (match_orders [SpotOrder.mk "Bw" 4 2] [SpotOrder.mk "Sw" 3 2]
      [BatchResult.joinErr "boom"]).outcome.isSome = true ∧
    (match_orders [SpotOrder.mk "Bw" 4 2] [SpotOrder.mk "Sw" 3 2]
      [BatchResult.joinErr "boom"]).logs.length =
      ([BatchResult.joinErr "boom"].takeWhile BatchResult.isOk).length :=
  batch_failure_effects [SpotOrder.mk "Bw" 4 2] [SpotOrder.mk "Sw" 3 2]
    [BatchResult.joinErr "boom"] (by decide) (by decide)

/-- Counterexample to C4 as stated: a round producing 4 fills is split into
2 batches; when both succeed, the result loop sends one record per successful
batch — 2 records, not exactly one. -/
theorem single_log_cex :
    (match_orders
      [SpotOrder.mk "B1" 9 1, SpotOrder.mk "B2" 9 1, SpotOrder.mk "B3" 9 1,
        SpotOrder.mk "B4" 9 1]
      [SpotOrder.mk "S1" 1 1, SpotOrder.mk "S2" 1 1, SpotOrder.mk "S3" 1 1,
        SpotOrder.mk "S4" 1 1]
      [BatchResult.ok, BatchResult.ok]).logs.length = 2 ∧
    (chunksOf2 (matchLoop
      [SpotOrder.mk "B1" 9 1, SpotOrder.mk "B2" 9 1, SpotOrder.mk "B3" 9 1,
        SpotOrder.mk "B4" 9 1]
      [SpotOrder.mk "S1" 1 1, SpotOrder.mk "S2" 1 1, SpotOrder.mk "S3" 1 1,
        SpotOrder.mk "S4" 1 1]).1).length = 2 ∧
    (2 : Nat) ≠ 1 := by
  decide

/-- C4 (amended): in a round with at least one fill where every batch
succeeds, the result loop sends one Round Metrics record per batch — the
number of records sent equals the number of batches (so it exceeds one
whenever more than one batch was submitted) — and the round returns `Ok`. -/
theorem logs_count_on_success (buys sells : List SpotOrder) (results : List BatchResult)
    (hf : (matchLoop buys sells).1 ≠ [])
    (hn : results.length = (chunksOf2 (matchLoop buys sells).1).length)
    (hall : ∀ r ∈ results, r.isOk = true) :
    (match_orders buys sells results).logs.length =
      (chunksOf2 (matchLoop buys sells).1).length ∧
    (match_orders buys sells results).outcome = none := by
  have hlen : ¬ (matchLoop buys sells).1.length = 0 := by
    intro h0
    exact hf (List.eq_nil_of_length_eq_zero h0)
  simp only [match_orders, if_neg hlen]
  have hp := processResults_allOk
    (TransactionLog.mk (sumFills (matchLoop buys sells).1) (matchLoop buys sells).1.length
      (matchLoop buys sells).2.1.length (matchLoop buys sells).2.2.length) results hall
  exact ⟨by rw [hp.2, hn], hp.1⟩

/-- Witness for the amended C4: 3 fills, 2 batches, both succeed — 2 records
are sent and the round returns `Ok`. -/
theorem logs_count_on_success_witness :
    (match_orders [SpotOrder.mk "Ba" 8 1, SpotOrder.mk "Bb" 8 1, SpotOrder.mk "Bc" 8 1]
      [SpotOrder.mk "Sa" 2 1, SpotOrder.mk "Sb" 2 1, SpotOrder.mk "Sc" 2 1]
      [BatchResult.ok, BatchResult.ok]).logs.length =
      (chunksOf2 (matchLoop
        [SpotOrder.mk "Ba" 8 1, SpotOrder.mk "Bb" 8 1, SpotOrder.mk "Bc" 8 1]
        [SpotOrder.mk "Sa" 2 1, SpotOrder.mk "Sb" 2 1, SpotOrder.mk "Sc" 2 1]).1).length ∧
    (match_orders [SpotOrder.mk "Ba" 8 1, SpotOrder.mk "Bb" 8 1, SpotOrder.mk "Bc" 8 1]
      [SpotOrder.mk "Sa" 2 1, SpotOrder.mk "Sb" 2 1, SpotOrder.mk "Sc" 2 1]
      [BatchResult.ok, BatchResult.ok]).outcome = none :=
  logs_count_on_success
    [SpotOrder.mk "Ba" 8 1, SpotOrder.mk "Bb" 8 1, SpotOrder.mk "Bc" 8 1]
    [SpotOrder.mk "Sa" 2 1, SpotOrder.mk "Sb" 2 1, SpotOrder.mk "Sc" 2 1]
    [BatchResult.ok, BatchResult.ok] (by decide) (by decide) (by decide)

/-- C7: partitioning a fill list into settlement batches is sequential
chunking with maximum size 2 — every batch except possibly the last has
exactly 2 fills, every batch (the last included) has between 1 and 2 fills,
and concatenating the batches in order reconstructs the fill list exactly. -/
theorem batch_partition (fills : List Fill) :
    (chunksOf2 fills).flatten = fills ∧
    (∀ c ∈ (chunksOf2 fills).dropLast, c.length = 2) ∧
    (∀ c ∈ chunksOf2 fills, 1 ≤ c.length ∧ c.length ≤ 2) :=
  ⟨chunksOf2_flatten fills, chunksOf2_dropLast fills, chunksOf2_bounds fills⟩

/-- Witness for C7 on a 3-fill list: the two batches concatenate back to the
list, and the non-final batch has exactly 2 fills. -/
theorem batch_partition_witness :
    (chunksOf2 [Fill.mk "a1" "b1" 1, Fill.mk "a2" "b2" 2, Fill.mk "a3" "b3" 3]).flatten =
      [Fill.mk "a1" "b1" 1, Fill.mk "a2" "b2" 2, Fill.mk "a3" "b3" 3] ∧
    ([Fill.mk "a1" "b1" 1, Fill.mk "a2" "b2" 2] : List Fill).length = 2 :=
  ⟨(batch_partition [Fill.mk "a1" "b1" 1, Fill.mk "a2" "b2" 2, Fill.mk "a3" "b3" 3]).1,
   (batch_partition [Fill.mk "a1" "b1" 1, Fill.mk "a2" "b2" 2, Fill.mk "a3" "b3" 3]).2.1
     [Fill.mk "a1" "b1" 1, Fill.mk "a2" "b2" 2] (by decide)⟩

/-- C8: the submitting identity of each settlement batch is a pure function
of the batch index alone (`identityFor` reads nothing but the index): index 0
uses the primary identity, indices 1..K use secondary identities 1..K, and
indices beyond K fall back to the primary identity, with K = 2 additional
wallets in this program. -/
theorem identity_rotation :
    identityFor numAdditionalWallets 0 = Identity.primary ∧
    (∀ i, 1 ≤ i → i ≤ numAdditionalWallets →
      identityFor numAdditionalWallets i = Identity.secondary i) ∧
    (∀ i, numAdditionalWallets < i → identityFor numAdditionalWallets i = Identity.primary) := by
  refine ⟨rfl, ?_, ?_⟩
  · intro i h1 h2
    unfold identityFor
    rw [if_neg (by omega), if_pos h2]
  · intro i h
    unfold identityFor
    rw [if_neg (by omega), if_neg (by omega)]

/-- Witness for C8: batch index 2 uses secondary identity 2; batch index 5,
beyond the pool, falls back to the primary identity. -/
theorem identity_rotation_witness :
    identityFor numAdditionalWallets 2 = Identity.secondary 2 ∧
    identityFor numAdditionalWallets 5 = Identity.primary :=
  ⟨identity_rotation.2.1 2 (by decide) (by decide),
   identity_rotation.2.2 5 (by decide)⟩

/-- C10: the settlement dispatch requires every buy and sell id in the fill
list to parse as a hex-encoded 256-bit value.  If any id in any batch fails
to parse, the id conversion panics (`none` here) before submission; under the
precondition that all ids parse, the panic branch is unreachable (the
conversion of every batch succeeds). -/
theorem hex_ids_total (fills : List Fill) :
    ((∃ f ∈ fills, from_hex_str f.buyId = none ∨ from_hex_str f.sellId = none) →
      convert_all_chunks (chunksOf2 fills) = none) ∧
    ((∀ f ∈ fills, (from_hex_str f.buyId).isSome = true ∧
        (from_hex_str f.sellId).isSome = true) →
      (convert_all_chunks (chunksOf2 fills)).isSome = true) := by
  constructor
  · intro h
    obtain ⟨f, hf, hbad⟩ := h
    have hmem : f ∈ (chunksOf2 fills).flatten := by
      rw [chunksOf2_flatten]
      exact hf
    obtain ⟨c, hc, hfc⟩ := List.mem_flatten.mp hmem
    exact convert_all_chunks_none (chunksOf2 fills) c hc
      (chunk_bits256_ids_none c f hfc hbad)
  · intro h
    apply convert_all_chunks_isSome
    intro c hc
    apply chunk_bits256_ids_isSome
    intro f hfc
    apply h
    rw [← chunksOf2_flatten fills]
    exact List.mem_flatten.mpr ⟨c, hc, hfc⟩

/-- Witness for C10: an id that is not hex ("zz") makes the conversion panic,
while a fill whose two ids are 64 hex digits converts successfully. -/
theorem hex_ids_total_witness :
    convert_all_chunks (chunksOf2 [Fill.mk "zz" "zz" 1]) = none ∧
    (convert_all_chunks (chunksOf2
      [Fill.mk "0000000000000000000000000000000000000000000000000000000000000001"
        "000000000000000000000000000000000000000000000000000000000000000f" 1])).isSome =
      true :=
  ⟨(hex_ids_total [Fill.mk "zz" "zz" 1]).1 (by decide),
   (hex_ids_total
      [Fill.mk "0000000000000000000000000000000000000000000000000000000000000001"
        "000000000000000000000000000000000000000000000000000000000000000f" 1]).2
     (by decide)⟩
